import Mathlib

/-!
Verification development for the thermal-observable engine in
`src/DataGeneration.py` (class `training_data`).

The code works with a total angular momentum quantum number `J` that is a
non-negative half-integer; we parameterize every operator by `tJ : ℕ` with
`tJ = 2 * J`, so the matrix dimension `2*J + 1` is `tJ + 1` and `J = tJ / 2`
as a real number.  Machine floats are modelled by real numbers; complex
matrices by `Matrix (Fin (tJ+1)) (Fin (tJ+1)) ℂ`.  The external
eigendecomposition routines (`scipy.linalg.eigvalsh` / `eigh`) and the
external `ham_cr` basis-function module are external collaborators of the
engine and are modelled as explicit inputs (a sorted eigenvalue list, an
`eig` function argument, an `assemble` function argument).  The stateful
`numpy` random generator is modelled as a stream `rng : ℕ → ℝ` of uniform
draws together with a position counter that advances by one per draw.
-/

open Complex Matrix

noncomputable section

/-! ### Angular momentum operators (`Jz_op` … `Jy_op`, lines 38-56) -/

/-- Ladder coefficient `sqrt((2J - k)*(k + 1))`, the entries of the band in
`Jplus_op`/`Jminus_op` (`np.sqrt((2*J - np.arange(2*J))*(np.arange(2*J)+1))`). -/
def ladder (tJ k : ℕ) : ℝ := Real.sqrt (((tJ : ℝ) - (k : ℝ)) * ((k : ℝ) + 1))

/-- `Jz_op`: `np.diag(np.arange(2*J+1) - J)`, the diagonal matrix with entries
`i - J` for `i = 0, …, 2J`. -/
def Jz_op (tJ : ℕ) : Matrix (Fin (tJ + 1)) (Fin (tJ + 1)) ℂ :=
  Matrix.diagonal fun i => ((((i : ℕ) : ℝ) - (tJ : ℝ) / 2 : ℝ) : ℂ)

/-- `Jplus_op`: `np.diag(v, -1)` with `v k = ladder tJ k`; the entry at row
`k+1`, column `k` is `ladder tJ k`. -/
def Jplus_op (tJ : ℕ) : Matrix (Fin (tJ + 1)) (Fin (tJ + 1)) ℂ :=
  Matrix.of fun i j => if (i : ℕ) = (j : ℕ) + 1 then ((ladder tJ (j : ℕ) : ℝ) : ℂ) else 0

/-- `Jminus_op`: `np.diag(v, 1)` with `v k = ladder tJ k`; the entry at row
`k`, column `k+1` is `ladder tJ k`. -/
def Jminus_op (tJ : ℕ) : Matrix (Fin (tJ + 1)) (Fin (tJ + 1)) ℂ :=
  Matrix.of fun i j => if (j : ℕ) = (i : ℕ) + 1 then ((ladder tJ (i : ℕ) : ℝ) : ℂ) else 0

/-- `Jx_op = (Jplus_op + Jminus_op)/2`. -/
def Jx_op (tJ : ℕ) : Matrix (Fin (tJ + 1)) (Fin (tJ + 1)) ℂ :=
  ((1 : ℂ) / 2) • (Jplus_op tJ + Jminus_op tJ)

/-- `Jy_op = -1j/2 * (Jplus_op - Jminus_op)`. -/
def Jy_op (tJ : ℕ) : Matrix (Fin (tJ + 1)) (Fin (tJ + 1)) ℂ :=
  (-Complex.I / 2) • (Jplus_op tJ - Jminus_op tJ)

/-! ### Physical constants and factors (lines 23-25, 58-59) -/

/-- Bohr magneton over Boltzmann constant (class constant `muB_over_kB`). -/
def muB_over_kB : ℝ := 0.671713816

/-- `gJLS = 1 + (J(J+1) + S(S+1) - L(L+1)) / (2 J (J+1))` (line 58-59). -/
def gJLS (J L S : ℝ) : ℝ :=
  1 + (J * (J + 1) + S * (S + 1) - L * (L + 1)) / (2 * J * (J + 1))

/-! ### Temperature and field grids (`np.linspace`, `np.geomspace`) -/

/-- `np.linspace(lo, hi, n)`: `n` points `lo + i*(hi-lo)/(n-1)`.  For `n = 1`
numpy returns `[lo]`; here the division by `(1:ℝ) - 1 = 0` yields `0` in Lean,
giving the same single point `lo`. -/
def linspace (lo hi : ℝ) (n : ℕ) : List ℝ :=
  (List.range n).map fun (i : ℕ) => lo + (i : ℝ) * (hi - lo) / ((n : ℝ) - 1)

/-- `np.geomspace(lo, hi, n)`: `n` points `lo * (hi/lo)^(i/(n-1))`
(geometric progression; equal to numpy's log-space construction for the
positive endpoints used by the code).  For `n = 1` the exponent is `0` and the
single point is `lo`. -/
def geomspace (lo hi : ℝ) (n : ℕ) : List ℝ :=
  (List.range n).map fun (i : ℕ) => lo * (hi / lo) ^ ((i : ℝ) / ((n : ℝ) - 1))

/-! ### Random Stevens parameters (`generate_random_stevens`, lines 63-97) -/

/-- One uniform draw `range[i][0] + (range[i][1] - range[i][0]) * rg.random()`;
the leading draw (`i = 0`) is additionally multiplied by `W_sign`
(lines 75-76, 81-85, 90-93).  The stream position of the draw for entry `i`
within a block starting at position `k` is `k + i`. -/
def drawOne (range : ℕ → ℝ × ℝ) (W_sign : ℝ) (rng : ℕ → ℝ) (k i : ℕ) : ℝ :=
  if i = 0 then ((range 0).1 + ((range 0).2 - (range 0).1) * rng k) * W_sign
  else (range i).1 + ((range i).2 - (range i).1) * rng (k + i)

/-- The body of the rejection loop: redraw entries `0 .. m-1` in order
(`m = 5` for C4v, `m = 4` for D3h), keeping the tail of the array. -/
def drawBlock (range : ℕ → ℝ × ℝ) (W_sign : ℝ) (rng : ℕ → ℝ) (m k : ℕ) : List ℝ :=
  (List.range m).map (drawOne range W_sign rng k)

/-- The while-loop condition value
`np.sum(np.abs(sp)) - np.abs(sp[0]) - np.abs(sp[-1])` (lines 80, 89). -/
def condVal (p : List ℝ) : ℝ :=
  (p.map fun x => |x|).sum - |p.headI| - |p.getLastD 0|

/-- The rejection loop of `generate_random_stevens`
(`while cond > 1: redraw entries 0 .. m-1`), with explicit fuel: `none` models
a run that does not terminate within `fuel` iterations. -/
def stevensLoop (range : ℕ → ℝ × ℝ) (W_sign : ℝ) (rng : ℕ → ℝ) (m : ℕ) :
    ℕ → List ℝ → ℕ → Option (List ℝ × ℕ)
  | 0, p, k => if condVal p ≤ 1 then some (p, k) else none
  | fuel + 1, p, k =>
    if condVal p ≤ 1 then some (p, k)
    else stevensLoop range W_sign rng m fuel
      (drawBlock range W_sign rng m k ++ p.drop m) (k + m)

/-- Result of `generate_random_stevens`: a parameter vector together with the
advanced rng position, fuel exhaustion of the rejection loop, or the
`ValueError("This point group is not implemented.")` branch (which consumes no
draw: it carries the unchanged position). -/
inductive StevensOutcome where
  | ok (params : List ℝ) (pos : ℕ)
  | outOfFuel
  | unsupported (pos : ℕ)

/-- `generate_random_stevens(range, W_sign)` (lines 63-97).  `"Oh"`: two draws,
no loop.  `"C4v"`: loop over `[1,1,1,1,1,0]` redrawing entries 0-4, then
`sp[5] = 2*rg.random() - 1`.  `"D3h"`: loop over `[1,1,1,1,0]` redrawing
entries 0-3, then `sp[4] = 2*rg.random() - 1`.  Other tags raise before any
draw. -/
def generate_random_stevens (point_group : String) (range : ℕ → ℝ × ℝ) (W_sign : ℝ)
    (rng : ℕ → ℝ) (fuel k : ℕ) : StevensOutcome :=
  if point_group = "Oh" then
    StevensOutcome.ok
      [((range 0).1 + ((range 0).2 - (range 0).1) * rng k) * W_sign,
       (range 1).1 + ((range 1).2 - (range 1).1) * rng (k + 1)] (k + 2)
  else if point_group = "C4v" then
    match stevensLoop range W_sign rng 5 fuel [1, 1, 1, 1, 1, 0] k with
    | none => StevensOutcome.outOfFuel
    | some (p, k2) => StevensOutcome.ok (p.set 5 (2 * rng k2 - 1)) (k2 + 1)
  else if point_group = "D3h" then
    match stevensLoop range W_sign rng 4 fuel [1, 1, 1, 1, 0] k with
    | none => StevensOutcome.outOfFuel
    | some (p, k2) => StevensOutcome.ok (p.set 4 (2 * rng k2 - 1)) (k2 + 1)
  else StevensOutcome.unsupported k

/-- Sum of absolute values of the interior entries of a parameter vector
(every entry except the first and the last). -/
def interiorAbsSum (p : List ℝ) : ℝ :=
  (((p.drop 1).dropLast).map fun x => |x|).sum

/-! ### Crystal field Hamiltonian assembly (`ham_cr`, lines 100-156) -/

/-- Result of the Python method `ham_cr`: an assembled matrix, the implicit
`None` return (when the if/elif chain on `J` matches nothing), or a raised
`ValueError` message. -/
inductive HamCrResult (M : Type) where
  | mat (m : M)
  | pyNone
  | err (msg : String)

/-- The `ValueError` message raised for a wrong parameter count (lines 111,
126, 142). -/
def paramCountMsg (point_group : String) : String :=
  if point_group = "Oh" then "Number of Stevens parameters should be 2 for point group Oh"
  else if point_group = "C4v" then
    "Number of Stevens parameters should be 5+1=6 for point group C4v"
  else "Number of Stevens parameters should be 4+1=5 for point group D3h"

/-- `ham_cr(stevens_params)` (lines 100-156).  The external module of
precomputed basis functions (`ham_cr.ham_cr_PG_<G>_J_<J>`) is abstracted as
the argument `assemble`, keyed by point group and `J`. -/
def ham_cr {M : Type} (assemble : String → ℝ → List ℝ → M)
    (point_group : String) (J : ℝ) (stevens_params : List ℝ) : HamCrResult M :=
  if point_group = "Oh" then
    if stevens_params.length ≠ 2 then HamCrResult.err (paramCountMsg "Oh")
    else if J = 4 then HamCrResult.mat (assemble "Oh" 4 stevens_params)
    else if J = 7.5 then HamCrResult.mat (assemble "Oh" 7.5 stevens_params)
    else if J = 3.5 then HamCrResult.mat (assemble "Oh" 3.5 stevens_params)
    else if J = 6 then HamCrResult.mat (assemble "Oh" 6 stevens_params)
    else if J = 8 then HamCrResult.mat (assemble "Oh" 8 stevens_params)
    else if J = 4.5 then HamCrResult.mat (assemble "Oh" 4.5 stevens_params)
    else HamCrResult.pyNone
  else if point_group = "C4v" then
    if stevens_params.length ≠ 6 then HamCrResult.err (paramCountMsg "C4v")
    else if J = 4 then HamCrResult.mat (assemble "C4v" 4 stevens_params)
    else if J = 7.5 then HamCrResult.mat (assemble "C4v" 7.5 stevens_params)
    else if J = 3.5 then HamCrResult.mat (assemble "C4v" 3.5 stevens_params)
    else if J = 6 then HamCrResult.mat (assemble "C4v" 6 stevens_params)
    else if J = 8 then HamCrResult.mat (assemble "C4v" 8 stevens_params)
    else if J = 4.5 then HamCrResult.mat (assemble "C4v" 4.5 stevens_params)
    else HamCrResult.pyNone
  else if point_group = "D3h" then
    if stevens_params.length ≠ 5 then HamCrResult.err (paramCountMsg "D3h")
    else if J = 4 then HamCrResult.mat (assemble "D3h" 4 stevens_params)
    else if J = 7.5 then HamCrResult.mat (assemble "D3h" 7.5 stevens_params)
    else if J = 3.5 then HamCrResult.mat (assemble "D3h" 3.5 stevens_params)
    else if J = 6 then HamCrResult.mat (assemble "D3h" 6 stevens_params)
    else if J = 8 then HamCrResult.mat (assemble "D3h" 8 stevens_params)
    else if J = 4.5 then HamCrResult.mat (assemble "D3h" 4.5 stevens_params)
    else HamCrResult.pyNone
  else HamCrResult.err "This point group and/or value of J is not implemented."

/-! ### Specific heat (`specific_heat`, lines 160-193) -/

/-- Zero-field partition function `Z_cr(T) = sum_j exp(-E_j/T)` (lines
179-180). -/
def Z_cr (energies : List ℝ) (T : ℝ) : ℝ :=
  (energies.map fun e => Real.exp (-e / T)).sum

/-- The specific-heat expression of lines 183-184:
`1/T^2 * (sum(E^2 exp(-E/T))/Z - sum(E exp(-E/T)/Z)^2)`. -/
def cV (energies : List ℝ) (T : ℝ) : ℝ :=
  1 / T ^ 2 *
    ((energies.map fun e => e ^ 2 * Real.exp (-e / T)).sum / Z_cr energies T -
      ((energies.map fun e => e * Real.exp (-e / T) / Z_cr energies T).sum) ^ 2)

/-- `specific_heat(ham, T_min, T_max, T_steps)` (lines 160-193).  The external
`LA.eigvalsh(ham)` is modelled by passing its result: the ascending list of
eigenvalues of `ham`.  The code subtracts `energies[0]` (the smallest
eigenvalue) and maps `cV` over the linear temperature grid. -/
def specific_heat (eigenvalues : List ℝ) (T_min T_max : ℝ) (T_steps : ℕ) :
    List (ℝ × ℝ) :=
  let energies := eigenvalues.map fun e => e - eigenvalues.headI
  (linspace T_min T_max T_steps).map fun t => (t, cV energies t)

/-- Boltzmann-weighted average of `f` over a spectrum at temperature `T`,
with weights `exp(-E_j/T)/Z(T)` — the spec-side notion `⟨·⟩` used to state
claim C1. -/
def boltzmannAvg (energies : List ℝ) (T : ℝ) (f : ℝ → ℝ) : ℝ :=
  (energies.map fun e => f e * Real.exp (-e / T)).sum /
    (energies.map fun e => Real.exp (-e / T)).sum

/-! ### Magnetization and susceptibility (lines 197-285) -/

/-- `LA.norm(B_direction)`: Euclidean norm of the 3-vector. -/
def norm3 (d : ℝ × ℝ × ℝ) : ℝ := Real.sqrt (d.1 ^ 2 + d.2.1 ^ 2 + d.2.2 ^ 2)

/-- `B_direction = B_direction/LA.norm(B_direction)` (lines 219, 264). -/
def normalize3 (d : ℝ × ℝ × ℝ) : ℝ × ℝ × ℝ :=
  (d.1 / norm3 d, d.2.1 / norm3 d, d.2.2 / norm3 d)

/-- `J_op = dir[0]*Jx + dir[1]*Jy + dir[2]*Jz` with `dir` the normalized
direction (lines 220, 265). -/
def J_dir_op (tJ : ℕ) (d : ℝ × ℝ × ℝ) : Matrix (Fin (tJ + 1)) (Fin (tJ + 1)) ℂ :=
  (((normalize3 d).1 : ℝ) : ℂ) • Jx_op tJ + (((normalize3 d).2.1 : ℝ) : ℂ) • Jy_op tJ +
    (((normalize3 d).2.2 : ℝ) : ℂ) • Jz_op tJ

/-- `ham = ham_cr - gJLS*muB_over_kB*J_op*B` (lines 227, 271), the
field-perturbed Hamiltonian shared by `magnetization` and `susceptibility`. -/
def perturbedHam (tJ : ℕ) (ham0 : Matrix (Fin (tJ + 1)) (Fin (tJ + 1)) ℂ)
    (d : ℝ × ℝ × ℝ) (B Jq L S : ℝ) : Matrix (Fin (tJ + 1)) (Fin (tJ + 1)) ℂ :=
  ham0 - ((gJLS Jq L S * muB_over_kB * B : ℝ) : ℂ) • J_dir_op tJ d

/-- Type of the external `LA.eigh` collaborator: eigenvalues (ascending) and
the matrix whose columns are the corresponding eigenvectors. -/
def EigFn (n : ℕ) : Type :=
  Matrix (Fin n) (Fin n) ℂ → (Fin n → ℝ) × Matrix (Fin n) (Fin n) ℂ

/-- The thermal moment of line 233-235:
`mag = gJLS/ZB * sum_i <v_i| J_op |v_i> exp(-E_i/T)` with
`ZB = sum_i exp(-E_i/T)`. -/
def magPoint (n : ℕ) (gJ : ℝ) (energies : Fin n → ℝ)
    (eigenstates Jop : Matrix (Fin n) (Fin n) ℂ) (T : ℝ) : ℂ :=
  ((gJ : ℝ) : ℂ) / ((∑ i, Real.exp (-energies i / T) : ℝ) : ℂ) *
    ∑ i, (∑ r, (starRingEnd ℂ) (eigenstates r i) * (Jop * eigenstates) r i) *
      ((Real.exp (-energies i / T) : ℝ) : ℂ)

/-- The thermal moment of line 277-279 inside `susceptibility` — textually the
same expression as in `magnetization`. -/
def suscMagPoint (n : ℕ) (gJ : ℝ) (energies : Fin n → ℝ)
    (eigenstates Jop : Matrix (Fin n) (Fin n) ℂ) (T : ℝ) : ℂ :=
  ((gJ : ℝ) : ℂ) / ((∑ i, Real.exp (-energies i / T) : ℝ) : ℂ) *
    ∑ i, (∑ r, (starRingEnd ℂ) (eigenstates r i) * (Jop * eigenstates) r i) *
      ((Real.exp (-energies i / T) : ℝ) : ℂ)

/-- `magnetization(ham_cr, B_direction, …)` (lines 197-241): for each `B` on
the linear field grid, diagonalize the perturbed Hamiltonian, zero-reference
the energies, and record `(B, T, mag)` for each `T` on the geometric grid.
The stored value is the real part (the complex value is written into a float
array). -/
def magnetization (tJ : ℕ) (eig : EigFn (tJ + 1))
    (ham_cr0 : Matrix (Fin (tJ + 1)) (Fin (tJ + 1)) ℂ) (B_direction : ℝ × ℝ × ℝ)
    (B_min B_max : ℝ) (B_steps : ℕ) (T_min T_max : ℝ) (T_steps : ℕ)
    (Jq L S : ℝ) : List (List (ℝ × ℝ × ℝ)) :=
  (linspace B_min B_max B_steps).map fun B =>
    (geomspace T_min T_max T_steps).map fun T =>
      (B, T,
        (magPoint (tJ + 1) (gJLS Jq L S)
          (fun i => (eig (perturbedHam tJ ham_cr0 B_direction B Jq L S)).1 i -
            (eig (perturbedHam tJ ham_cr0 B_direction B Jq L S)).1 0)
          (eig (perturbedHam tJ ham_cr0 B_direction B Jq L S)).2
          (J_dir_op tJ B_direction) T).re)

/-- `susceptibility(ham_cr, B_direction, B, …)` (lines 245-285): one perturbed
Hamiltonian at the weak field `B`, then `(T, mag/B)` for each `T` on the
linear temperature grid. -/
def susceptibility (tJ : ℕ) (eig : EigFn (tJ + 1))
    (ham_cr0 : Matrix (Fin (tJ + 1)) (Fin (tJ + 1)) ℂ) (B_direction : ℝ × ℝ × ℝ)
    (B : ℝ) (T_min T_max : ℝ) (T_steps : ℕ) (Jq L S : ℝ) : List (ℝ × ℝ) :=
  (linspace T_min T_max T_steps).map fun T =>
    (T,
      (suscMagPoint (tJ + 1) (gJLS Jq L S)
        (fun i => (eig (perturbedHam tJ ham_cr0 B_direction B Jq L S)).1 i -
          (eig (perturbedHam tJ ham_cr0 B_direction B Jq L S)).1 0)
        (eig (perturbedHam tJ ham_cr0 B_direction B Jq L S)).2
        (J_dir_op tJ B_direction) T / ((B : ℝ) : ℂ)).re)

/-! ### Statements of the spec claims that need a named proposition -/

/-- Claim C1 as a proposition: the curve has `T_steps` points; there is a
minimum `m` of the eigenvalue list; and the `i`-th point is the linspace
temperature paired with `(1/T^2) * (⟨E²⟩ - ⟨E⟩²)`, the Boltzmann-weighted
variance of the spectrum zero-referenced at `m`. -/
def SpecificHeatClaim (eigenvalues : List ℝ) (T_min T_max : ℝ) (T_steps : ℕ) : Prop :=
  (specific_heat eigenvalues T_min T_max T_steps).length = T_steps ∧
  ∃ m, m ∈ eigenvalues ∧ (∀ x ∈ eigenvalues, m ≤ x) ∧
    ∀ i, i < T_steps →
      (specific_heat eigenvalues T_min T_max T_steps).getD i (0, 0) =
        (T_min + (i : ℝ) * (T_max - T_min) / ((T_steps : ℝ) - 1),
          1 / (T_min + (i : ℝ) * (T_max - T_min) / ((T_steps : ℝ) - 1)) ^ 2 *
            (boltzmannAvg (eigenvalues.map fun e => e - m)
                (T_min + (i : ℝ) * (T_max - T_min) / ((T_steps : ℝ) - 1))
                (fun e => e ^ 2) -
              boltzmannAvg (eigenvalues.map fun e => e - m)
                (T_min + (i : ℝ) * (T_max - T_min) / ((T_steps : ℝ) - 1))
                (fun e => e) ^ 2))

/-- Claim C3 as a proposition: the perturbed Hamiltonian equals
`ham0 - gJLS * 0.671713816 * B • (dx•Jx + dy•Jy + dz•Jz)` with `(dx,dy,dz)`
the direction scaled by its Euclidean norm; the normalized direction has unit
length; and `gJLS` is the stated Landé-type expression. -/
def PerturbedHamClaim (tJ : ℕ) (ham0 : Matrix (Fin (tJ + 1)) (Fin (tJ + 1)) ℂ)
    (d : ℝ × ℝ × ℝ) (B Jq L S : ℝ) : Prop :=
  perturbedHam tJ ham0 d B Jq L S =
    ham0 - ((gJLS Jq L S * 0.671713816 * B : ℝ) : ℂ) •
      (((d.1 / Real.sqrt (d.1 ^ 2 + d.2.1 ^ 2 + d.2.2 ^ 2) : ℝ) : ℂ) • Jx_op tJ +
        ((d.2.1 / Real.sqrt (d.1 ^ 2 + d.2.1 ^ 2 + d.2.2 ^ 2) : ℝ) : ℂ) • Jy_op tJ +
        ((d.2.2 / Real.sqrt (d.1 ^ 2 + d.2.1 ^ 2 + d.2.2 ^ 2) : ℝ) : ℂ) • Jz_op tJ) ∧
  (normalize3 d).1 ^ 2 + (normalize3 d).2.1 ^ 2 + (normalize3 d).2.2 ^ 2 = 1 ∧
  gJLS Jq L S = 1 + (Jq * (Jq + 1) + S * (S + 1) - L * (L + 1)) / (2 * Jq * (Jq + 1))

/-- Claim C4 as a proposition: whenever an entry of the magnetization grid
has field value `B` (the susceptibility field) and the same temperature as an
entry of the susceptibility curve, the susceptibility value times `B` equals
the magnetization value. -/
def SuscMagAgreeClaim (tJ : ℕ) (eig : EigFn (tJ + 1))
    (ham0 : Matrix (Fin (tJ + 1)) (Fin (tJ + 1)) ℂ) (d : ℝ × ℝ × ℝ)
    (B B_min B_max : ℝ) (B_steps : ℕ) (T_min2 T_max2 : ℝ) (T_steps2 : ℕ)
    (T_min T_max : ℝ) (T_steps : ℕ) (Jq L S : ℝ) : Prop :=
  ∀ p ∈ susceptibility tJ eig ham0 d B T_min T_max T_steps Jq L S,
  ∀ row ∈ magnetization tJ eig ham0 d B_min B_max B_steps T_min2 T_max2 T_steps2
      Jq L S,
  ∀ q ∈ row, q.1 = B → p.1 = q.2.1 → p.2 * B = q.2.2

/-- Claim C6 as stated: for the point groups with a rejection loop, the
accepted leading parameter always equals the leading-draw formula evaluated at
the initial rng position `k` (`drawn exactly once, never redrawn`). -/
def LeadingDrawnOnce : Prop :=
  ∀ (point_group : String) (range : ℕ → ℝ × ℝ) (W_sign : ℝ) (rng : ℕ → ℝ)
    (fuel k : ℕ) (params : List ℝ) (pos : ℕ),
    (point_group = "C4v" ∨ point_group = "D3h") →
    generate_random_stevens point_group range W_sign rng fuel k =
      StevensOutcome.ok params pos →
    params.headI = ((range 0).1 + ((range 0).2 - (range 0).1) * rng k) * W_sign

/-- The rng stream of the C6 counterexample: draws 1-5 return 1/2, all other
draws return 0.  With ranges `(0,1)` the first C4v loop iteration draws
interior values summing to 2 (rejected) and the second iteration draws a
leading value 1/2 with interior zeros (accepted). -/
def cexRng : ℕ → ℝ := fun k => if 1 ≤ k ∧ k ≤ 5 then 1 / 2 else 0

/-! ### Operator algebra lemmas -/

lemma ladder_sq (tJ k : ℕ) (h : k < tJ) :
    ladder tJ k ^ 2 = ((tJ : ℝ) - (k : ℝ)) * ((k : ℝ) + 1) := by
  have hk : (0 : ℝ) ≤ ((tJ : ℝ) - (k : ℝ)) * ((k : ℝ) + 1) := by
    have h1 : (k : ℝ) ≤ (tJ : ℝ) := by exact_mod_cast h.le
    nlinarith
  rw [ladder, Real.sq_sqrt hk]

lemma JpJm_apply (tJ : ℕ) (i j : Fin (tJ + 1)) :
    (Jplus_op tJ * Jminus_op tJ) i j =
      if i = j ∧ 1 ≤ (i : ℕ) then ((ladder tJ ((i : ℕ) - 1) ^ 2 : ℝ) : ℂ) else 0 := by
  rw [Matrix.mul_apply]
  simp only [Jplus_op, Jminus_op, Matrix.of_apply]
  by_cases hij : i = j
  · subst hij
    by_cases h1 : 1 ≤ (i : ℕ)
    · rw [if_pos ⟨rfl, h1⟩]
      have hk : (i : ℕ) - 1 < tJ + 1 := by omega
      rw [Finset.sum_eq_single (⟨(i : ℕ) - 1, hk⟩ : Fin (tJ + 1))]
      · simp only [Fin.val_mk]
        rw [if_pos (by omega : (i : ℕ) = ((i : ℕ) - 1) + 1)]
        push_cast
        ring
      · intro b _ hb
        split_ifs with ha
        · exact absurd (Fin.ext (by simp only [Fin.val_mk]; omega)) hb
        · exact mul_zero _
      · intro h; exact absurd (Finset.mem_univ _) h
    · rw [if_neg (by simp [h1])]
      apply Finset.sum_eq_zero
      intro k _
      rw [if_neg (by omega), zero_mul]
  · rw [if_neg (by simp [hij])]
    apply Finset.sum_eq_zero
    intro k _
    split_ifs with ha hb
    · exact absurd (Fin.ext (by omega)) hij
    · exact mul_zero _
    · exact zero_mul _
    · exact zero_mul _

lemma JmJp_apply (tJ : ℕ) (i j : Fin (tJ + 1)) :
    (Jminus_op tJ * Jplus_op tJ) i j =
      if i = j ∧ (i : ℕ) < tJ then ((ladder tJ (i : ℕ) ^ 2 : ℝ) : ℂ) else 0 := by
  rw [Matrix.mul_apply]
  simp only [Jplus_op, Jminus_op, Matrix.of_apply]
  by_cases hij : i = j
  · subst hij
    by_cases h1 : (i : ℕ) < tJ
    · rw [if_pos ⟨rfl, h1⟩]
      have hk : (i : ℕ) + 1 < tJ + 1 := by omega
      rw [Finset.sum_eq_single (⟨(i : ℕ) + 1, hk⟩ : Fin (tJ + 1))]
      · simp only [Fin.val_mk, if_true]
        push_cast
        ring
      · intro b _ hb
        split_ifs with ha
        · exact absurd (Fin.ext (by simp only [Fin.val_mk]; omega)) hb
        · exact mul_zero _
      · intro h; exact absurd (Finset.mem_univ _) h
    · rw [if_neg (by simp [h1])]
      apply Finset.sum_eq_zero
      intro k _
      have hk' : (k : ℕ) < tJ + 1 := k.isLt
      rw [if_neg (by omega), zero_mul]
  · rw [if_neg (by simp [hij])]
    apply Finset.sum_eq_zero
    intro k _
    split_ifs with ha hb
    · exact absurd (Fin.ext (by omega)) hij
    · exact mul_zero _
    · exact zero_mul _
    · exact zero_mul _

/-- The ladder-operator commutator: `[J+, J-] = 2 Jz`. -/
lemma comm_Jp_Jm (tJ : ℕ) :
    Jplus_op tJ * Jminus_op tJ - Jminus_op tJ * Jplus_op tJ = (2 : ℂ) • Jz_op tJ := by
  ext i j
  rw [Matrix.sub_apply, JpJm_apply, JmJp_apply, Matrix.smul_apply]
  by_cases hij : i = j
  · subst hij
    have hle : (i : ℕ) ≤ tJ := by omega
    rw [Jz_op, Matrix.diagonal_apply_eq, smul_eq_mul]
    by_cases h1 : 1 ≤ (i : ℕ) <;> by_cases h2 : (i : ℕ) < tJ
    · rw [if_pos ⟨rfl, h1⟩, if_pos ⟨rfl, h2⟩,
        ladder_sq tJ _ (by omega), ladder_sq tJ _ h2]
      have hc : ((((i : ℕ) - 1 : ℕ) : ℝ)) = ((i : ℕ) : ℝ) - 1 := by
        push_cast [h1]; ring
      push_cast [hc]
      ring
    · have hi : (i : ℕ) = tJ := by omega
      rw [if_pos ⟨rfl, h1⟩, if_neg (by simp [h2]),
        ladder_sq tJ _ (by omega)]
      have h1tJ : 1 ≤ tJ := by omega
      push_cast [hi, Nat.cast_sub h1tJ]
      ring
    · have hi : (i : ℕ) = 0 := by omega
      rw [if_neg (by simp [h1]), if_pos ⟨rfl, h2⟩, ladder_sq tJ _ h2]
      push_cast [hi]
      ring
    · have hi : (i : ℕ) = 0 := by omega
      have htJ : tJ = 0 := by omega
      rw [if_neg (by simp [h1]), if_neg (by simp [h2])]
      push_cast [hi, htJ]
      ring
  · rw [if_neg (by simp [hij]), if_neg (by simp [hij]), Jz_op,
      Matrix.diagonal_apply_ne _ hij]
    simp

/-- `[Jz, J+] = J+`. -/
lemma comm_Jz_Jp (tJ : ℕ) :
    Jz_op tJ * Jplus_op tJ - Jplus_op tJ * Jz_op tJ = Jplus_op tJ := by
  ext i j
  rw [Matrix.sub_apply, Jz_op, Matrix.diagonal_mul, Matrix.mul_diagonal]
  simp only [Jplus_op, Matrix.of_apply]
  split_ifs with h
  · have hc : ((i : ℕ) : ℂ) = ((j : ℕ) : ℂ) + 1 := by exact_mod_cast h
    push_cast
    rw [hc]
    ring
  · ring

/-- `[Jz, J-] = -J-`. -/
lemma comm_Jz_Jm (tJ : ℕ) :
    Jz_op tJ * Jminus_op tJ - Jminus_op tJ * Jz_op tJ = -Jminus_op tJ := by
  ext i j
  rw [Matrix.sub_apply, Jz_op, Matrix.diagonal_mul, Matrix.mul_diagonal]
  simp only [Jminus_op, Matrix.of_apply, Matrix.neg_apply]
  split_ifs with h
  · have hc : ((j : ℕ) : ℂ) = ((i : ℕ) : ℂ) + 1 := by exact_mod_cast h
    push_cast
    rw [hc]
    ring
  · ring

/-- The angular-momentum commutation relation `[Jx, Jy] = i Jz`. -/
lemma comm_Jx_Jy (tJ : ℕ) :
    Jx_op tJ * Jy_op tJ - Jy_op tJ * Jx_op tJ = Complex.I • Jz_op tJ := by
  rw [Jx_op, Jy_op]
  have key := comm_Jp_Jm tJ
  set A := Jplus_op tJ
  set B := Jminus_op tJ
  set Z := Jz_op tJ
  have hBA : B * A - A * B = (-2 : ℂ) • Z := by
    have h : B * A - A * B = -(A * B - B * A) := by noncomm_ring
    rw [h, key, neg_smul]
  simp only [smul_mul_assoc, mul_smul_comm, smul_smul]
  have hs1 : ((1 : ℂ) / 2) * (-Complex.I / 2) = -Complex.I / 4 := by ring
  have hs2 : (-Complex.I / 2) * ((1 : ℂ) / 2) = -Complex.I / 4 := by ring
  rw [hs1, hs2, ← smul_sub]
  have expand : (A + B) * (A - B) - (A - B) * (A + B)
      = (B * A - A * B) + (B * A - A * B) := by noncomm_ring
  rw [expand, hBA, ← add_smul, smul_smul]
  congr 1
  ring

/-- The angular-momentum commutation relation `[Jy, Jz] = i Jx`. -/
lemma comm_Jy_Jz (tJ : ℕ) :
    Jy_op tJ * Jz_op tJ - Jz_op tJ * Jy_op tJ = Complex.I • Jx_op tJ := by
  rw [Jy_op, Jx_op]
  have hA := comm_Jz_Jp tJ
  have hB := comm_Jz_Jm tJ
  set A := Jplus_op tJ
  set B := Jminus_op tJ
  set Z := Jz_op tJ
  simp only [smul_mul_assoc, mul_smul_comm, smul_smul]
  rw [← smul_sub]
  have expand : (A - B) * Z - Z * (A - B)
      = -((Z * A - A * Z)) + (Z * B - B * Z) := by noncomm_ring
  rw [expand, hA, hB]
  have h : -A + -B = (-1 : ℂ) • (A + B) := by
    rw [neg_one_smul]; abel
  rw [h, smul_smul]
  congr 1
  ring

/-- The angular-momentum commutation relation `[Jz, Jx] = i Jy`. -/
lemma comm_Jz_Jx (tJ : ℕ) :
    Jz_op tJ * Jx_op tJ - Jx_op tJ * Jz_op tJ = Complex.I • Jy_op tJ := by
  rw [Jx_op, Jy_op]
  have hA := comm_Jz_Jp tJ
  have hB := comm_Jz_Jm tJ
  set A := Jplus_op tJ
  set B := Jminus_op tJ
  set Z := Jz_op tJ
  simp only [smul_mul_assoc, mul_smul_comm, smul_smul]
  rw [← smul_sub]
  have expand : Z * (A + B) - (A + B) * Z
      = (Z * A - A * Z) + (Z * B - B * Z) := by noncomm_ring
  rw [expand, hA, hB]
  have h : A + -B = A - B := by noncomm_ring
  rw [h]
  have hI : (Complex.I * (-Complex.I / 2) : ℂ) = 1 / 2 := by
    have h2 := Complex.I_mul_I
    linear_combination (-1 / 2 : ℂ) * h2
  rw [hI]

/-! ### List and rejection-loop lemmas -/

lemma list_sum_map_div (l : List ℝ) (g : ℝ → ℝ) (c : ℝ) :
    (l.map fun e => g e / c).sum = (l.map g).sum / c := by
  induction l with
  | nil => simp
  | cons a t ih => simp [ih, add_div]

lemma drawBlock_length (range : ℕ → ℝ × ℝ) (W_sign : ℝ) (rng : ℕ → ℝ) (m k : ℕ) :
    (drawBlock range W_sign rng m k).length = m := by
  simp [drawBlock]

lemma stevensLoop_exit (range : ℕ → ℝ × ℝ) (W_sign : ℝ) (rng : ℕ → ℝ) (m : ℕ)
    (fuel : ℕ) (p : List ℝ) (k : ℕ) (h : condVal p ≤ 1) :
    stevensLoop range W_sign rng m fuel p k = some (p, k) := by
  cases fuel <;> simp [stevensLoop, h]

lemma stevensLoop_le_one (range : ℕ → ℝ × ℝ) (W_sign : ℝ) (rng : ℕ → ℝ) (m : ℕ) :
    ∀ (fuel : ℕ) (p : List ℝ) (k : ℕ) (q : List ℝ) (k2 : ℕ),
      stevensLoop range W_sign rng m fuel p k = some (q, k2) → condVal q ≤ 1 := by
  intro fuel
  induction fuel with
  | zero =>
    intro p k q k2 h
    rw [stevensLoop] at h
    split_ifs at h with hc
    · obtain ⟨rfl, rfl⟩ : p = q ∧ k = k2 := by simpa using h
      exact hc
  | succ fuel ih =>
    intro p k q k2 h
    rw [stevensLoop] at h
    split_ifs at h with hc
    · obtain ⟨rfl, rfl⟩ : p = q ∧ k = k2 := by simpa using h
      exact hc
    · exact ih _ _ _ _ h

lemma stevensLoop_length (range : ℕ → ℝ × ℝ) (W_sign : ℝ) (rng : ℕ → ℝ) (m : ℕ) :
    ∀ (fuel : ℕ) (p : List ℝ) (k : ℕ) (q : List ℝ) (k2 : ℕ),
      p.length = m + 1 →
      stevensLoop range W_sign rng m fuel p k = some (q, k2) → q.length = m + 1 := by
  intro fuel
  induction fuel with
  | zero =>
    intro p k q k2 hp h
    rw [stevensLoop] at h
    split_ifs at h with hc
    · obtain ⟨rfl, rfl⟩ : p = q ∧ k = k2 := by simpa using h
      exact hp
  | succ fuel ih =>
    intro p k q k2 hp h
    rw [stevensLoop] at h
    split_ifs at h with hc
    · obtain ⟨rfl, rfl⟩ : p = q ∧ k = k2 := by simpa using h
      exact hp
    · refine ih _ _ _ _ ?_ h
      rw [List.length_append, drawBlock_length, List.length_drop, hp]
      omega

lemma stevensLoop_accepted_block (range : ℕ → ℝ × ℝ) (W_sign : ℝ) (rng : ℕ → ℝ)
    (m : ℕ) :
    ∀ (fuel : ℕ) (p : List ℝ) (k : ℕ) (q : List ℝ) (k2 : ℕ),
      1 < condVal p →
      stevensLoop range W_sign rng m fuel p k = some (q, k2) →
      k + m ≤ k2 ∧ q = drawBlock range W_sign rng m (k2 - m) ++ p.drop m := by
  intro fuel
  induction fuel with
  | zero =>
    intro p k q k2 hp h
    rw [stevensLoop, if_neg (by linarith)] at h
    exact absurd h (by simp)
  | succ fuel ih =>
    intro p k q k2 hp h
    rw [stevensLoop, if_neg (by linarith)] at h
    by_cases hc : condVal (drawBlock range W_sign rng m k ++ p.drop m) ≤ 1
    · rw [stevensLoop_exit _ _ _ _ _ _ _ hc] at h
      obtain ⟨rfl, rfl⟩ : drawBlock range W_sign rng m k ++ p.drop m = q ∧ k + m = k2 := by
        simpa using h
      refine ⟨le_refl _, ?_⟩
      rw [Nat.add_sub_cancel]
    · have := ih _ _ _ _ (by linarith [not_le.mp hc]) h
      obtain ⟨h1, h2⟩ := this
      refine ⟨by omega, ?_⟩
      rw [h2, List.drop_left' (drawBlock_length range W_sign rng m k)]

lemma interiorAbsSum_eq_condVal (p : List ℝ) (h : 2 ≤ p.length) :
    interiorAbsSum p = condVal p := by
  obtain ⟨a, t⟩ : ∃ a t, p = a :: t := by
    cases p with
    | nil => simp at h
    | cons a t => exact ⟨a, t, rfl⟩
  obtain ⟨t, rfl⟩ := t
  obtain ⟨ys, b, rfl⟩ : ∃ ys b, t = ys ++ [b] := by
    rcases List.eq_nil_or_concat t with h0 | ⟨ys, b, h0⟩
    · subst h0; simp at h
    · exact ⟨ys, b, by simpa [List.concat_eq_append] using h0⟩
  rw [interiorAbsSum, condVal]
  have hgl : (a :: (ys ++ [b])).getLastD 0 = b := by
    rw [show a :: (ys ++ [b]) = (a :: ys) ++ [b] by simp, List.getLastD_concat]
  rw [hgl]
  simp only [List.drop_one, List.tail_cons, List.dropLast_concat, List.headI_cons,
    List.map_cons, List.map_append, List.sum_cons, List.sum_append, List.map,
    List.sum_cons, List.sum_nil]
  ring

lemma set_concat_length (ys : List ℝ) (b v : ℝ) :
    (ys ++ [b]).set ys.length v = ys ++ [v] := by
  induction ys with
  | nil => simp
  | cons y t ih => simp [ih]

lemma interiorAbsSum_set_last (p : List ℝ) (m : ℕ) (v : ℝ)
    (hp : p.length = m + 1) (hm : 1 ≤ m) :
    interiorAbsSum (p.set m v) = interiorAbsSum p := by
  obtain ⟨ys, b, rfl⟩ : ∃ ys b, p = ys ++ [b] := by
    rcases List.eq_nil_or_concat p with h0 | ⟨ys, b, h0⟩
    · subst h0; simp at hp
    · exact ⟨ys, b, by simpa [List.concat_eq_append] using h0⟩
  have hys : ys.length = m := by
    rw [List.length_append, List.length_singleton] at hp
    omega
  rw [← hys, set_concat_length]
  have h1 : 1 ≤ ys.length := by omega
  rw [interiorAbsSum, interiorAbsSum, List.drop_one, List.drop_one]
  rw [show (ys ++ [v]).tail = ys.tail ++ [v] by
        cases ys with
        | nil => simp at h1
        | cons y t => simp,
      show (ys ++ [b]).tail = ys.tail ++ [b] by
        cases ys with
        | nil => simp at h1
        | cons y t => simp]
  rw [List.dropLast_concat, List.dropLast_concat]

lemma headI_set_of_ne_zero (l : List ℝ) (n : ℕ) (v : ℝ) (h : n ≠ 0) :
    (l.set n v).headI = l.headI := by
  cases l with
  | nil => simp
  | cons a t =>
    cases n with
    | zero => exact absurd rfl h
    | succ n => simp [List.set]

lemma drawBlock_headI (range : ℕ → ℝ × ℝ) (W_sign : ℝ) (rng : ℕ → ℝ) (m k : ℕ)
    (hm : 1 ≤ m) :
    (drawBlock range W_sign rng m k).headI =
      ((range 0).1 + ((range 0).2 - (range 0).1) * rng k) * W_sign := by
  obtain ⟨m, rfl⟩ : ∃ m0, m = m0 + 1 := ⟨m - 1, by omega⟩
  rw [drawBlock, List.range_succ_eq_map]
  simp [drawOne]


lemma headI_append_of_ne_nil (l1 l2 : List ℝ) (h : l1 ≠ []) :
    (l1 ++ l2).headI = l1.headI := by
  cases l1 with
  | nil => exact absurd rfl h
  | cons a t => simp

lemma div_ofReal_re_mul (z : ℂ) (B : ℝ) (hB : B ≠ 0) :
    (z / ((B : ℝ) : ℂ)).re * B = z.re := by
  rw [div_eq_mul_inv, ← Complex.ofReal_inv, Complex.mul_re, Complex.ofReal_re,
    Complex.ofReal_im]
  field_simp

lemma suscMagPoint_eq_magPoint : @suscMagPoint = @magPoint := rfl

/-! ### Claim theorems -/

/-- C5: for every valid total angular momentum (a non-negative half-integer
`J = tJ/2` with `tJ : ℕ`), `Jz_op` is diagonal with diagonal entries exactly
`-J, -J+1, …, J` in ascending order (entry `i` is `i - J`, the first entry is
`-J`, the last is `J`, consecutive entries differ by `1`), and the three
operators satisfy the angular-momentum commutation relation
`[Jx, Jy] = i Jz` together with its cyclic permutations. -/
theorem Jz_diagonal_and_commutation (tJ : ℕ) :
    (∀ i j : Fin (tJ + 1), Jz_op tJ i j =
      if i = j then ((((i : ℕ) : ℝ) - (tJ : ℝ) / 2 : ℝ) : ℂ) else 0) ∧
    Jz_op tJ 0 0 = ((-((tJ : ℝ) / 2) : ℝ) : ℂ) ∧
    Jz_op tJ (Fin.last tJ) (Fin.last tJ) = (((tJ : ℝ) / 2 : ℝ) : ℂ) ∧
    (∀ i : Fin tJ, Jz_op tJ i.succ i.succ = Jz_op tJ i.castSucc i.castSucc + 1) ∧
    Jx_op tJ * Jy_op tJ - Jy_op tJ * Jx_op tJ = Complex.I • Jz_op tJ ∧
    Jy_op tJ * Jz_op tJ - Jz_op tJ * Jy_op tJ = Complex.I • Jx_op tJ ∧
    Jz_op tJ * Jx_op tJ - Jx_op tJ * Jz_op tJ = Complex.I • Jy_op tJ := by
  refine ⟨fun i j => Matrix.diagonal_apply _ i j, ?_, ?_, ?_,
    comm_Jx_Jy tJ, comm_Jy_Jz tJ, comm_Jz_Jx tJ⟩
  · rw [Jz_op, Matrix.diagonal_apply_eq]
    norm_num
  · rw [Jz_op, Matrix.diagonal_apply_eq]
    rw [Fin.val_last]
    push_cast
    ring_nf
  · intro i
    rw [Jz_op, Matrix.diagonal_apply_eq, Matrix.diagonal_apply_eq]
    rw [Fin.val_succ, Fin.coe_castSucc]
    push_cast
    ring

/-- C7 (refutes the validation claim): the code performs no temperature
validation at all.  With `T_min = 0` both `specific_heat` and
`susceptibility` still return a full `T_steps`-point curve whose first grid
temperature is `0`, instead of failing (the reference code defines no
`InvalidTemperatureRange` error and has no error path in these functions). -/
theorem no_temperature_validation :
    (specific_heat [0] 0 300 3).length = 3 ∧
    ((specific_heat [0] 0 300 3).getD 0 (1, 1)).1 = 0 ∧
    (susceptibility 0 (fun _ => (fun _ => 0, 1)) 0 (0, 0, 1) 1 0 300 3 4 5 1).length = 3 ∧
    ((susceptibility 0 (fun _ => (fun _ => 0, 1)) 0 (0, 0, 1) 1 0 300 3 4 5 1).getD 0
      (1, 1)).1 = 0 := by
  refine ⟨by simp only [specific_heat, linspace, List.length_map, List.length_range], ?_,
    by simp only [susceptibility, linspace, List.length_map, List.length_range], ?_⟩
  · norm_num [specific_heat, linspace, show List.range 3 = [0, 1, 2] from rfl]
  · norm_num [susceptibility, linspace, show List.range 3 = [0, 1, 2] from rfl]

/-- C8: for every point group tag other than the three supported ones,
`generate_random_stevens` takes the unsupported branch without consuming any
draw: for every rng stream and position the result is `.unsupported k` with
the rng position unchanged. -/
theorem unsupported_point_group_no_draw (point_group : String)
    (h1 : point_group ≠ "Oh") (h2 : point_group ≠ "C4v") (h3 : point_group ≠ "D3h")
    (range : ℕ → ℝ × ℝ) (W_sign : ℝ) (rng : ℕ → ℝ) (fuel k : ℕ) :
    generate_random_stevens point_group range W_sign rng fuel k =
      StevensOutcome.unsupported k := by
  rw [generate_random_stevens, if_neg h1, if_neg h2, if_neg h3]

theorem unsupported_point_group_no_draw_witness :
    (("Td" : String) ≠ "Oh" ∧ ("Td" : String) ≠ "C4v" ∧ ("Td" : String) ≠ "D3h") ∧
    generate_random_stevens "Td" (fun _ => (0, 1)) 1 (fun _ => 1 / 2) 3 7 =
      StevensOutcome.unsupported 7 :=
  ⟨⟨by decide, by decide, by decide⟩,
    unsupported_point_group_no_draw "Td" (by decide) (by decide) (by decide) _ _ _ _ _⟩

/-- C9: for each supported point group, a parameter vector whose length
differs from the expected count (2 for Oh, 6 for C4v, 5 for D3h) makes
`ham_cr` fail with the parameter-count `ValueError` — and it does so for
every external basis-function library `assemble`, i.e. before the external
basis function could be called. -/
theorem param_count_checked_before_assemble {M : Type}
    (assemble : String → ℝ → List ℝ → M) (point_group : String) (J : ℝ)
    (stevens_params : List ℝ)
    (h : (point_group = "Oh" ∧ stevens_params.length ≠ 2) ∨
      (point_group = "C4v" ∧ stevens_params.length ≠ 6) ∨
      (point_group = "D3h" ∧ stevens_params.length ≠ 5)) :
    ham_cr assemble point_group J stevens_params =
      HamCrResult.err (paramCountMsg point_group) := by
  rcases h with ⟨rfl, hl⟩ | ⟨rfl, hl⟩ | ⟨rfl, hl⟩
  · rw [ham_cr, if_pos rfl, if_pos hl]
  · rw [ham_cr, if_neg (by decide), if_pos rfl, if_pos hl]
  · rw [ham_cr, if_neg (by decide), if_neg (by decide), if_pos rfl, if_pos hl]

theorem param_count_checked_before_assemble_witness :
    ((("Oh" : String) = "Oh" ∧ ([] : List ℝ).length ≠ 2) ∨
      (("Oh" : String) = "C4v" ∧ ([] : List ℝ).length ≠ 6) ∨
      (("Oh" : String) = "D3h" ∧ ([] : List ℝ).length ≠ 5)) ∧
    ham_cr (fun _ _ _ => (0 : ℕ)) "Oh" 4 [] = HamCrResult.err (paramCountMsg "Oh") :=
  ⟨Or.inl ⟨rfl, by decide⟩,
    param_count_checked_before_assemble (fun _ _ _ => (0 : ℕ)) "Oh" 4 []
      (Or.inl ⟨rfl, by decide⟩)⟩

/-- C10: for a supported point group with the correct parameter count but a
`J` outside the supported set `{3.5, 4, 4.5, 6, 7.5, 8}`, `ham_cr` raises no
error and returns no matrix: it returns the implicit Python `None` (the
trailing not-implemented branch is unreachable for a supported point
group). -/
theorem unsupported_J_returns_none {M : Type}
    (assemble : String → ℝ → List ℝ → M) (point_group : String) (J : ℝ)
    (stevens_params : List ℝ)
    (hpg : (point_group = "Oh" ∧ stevens_params.length = 2) ∨
      (point_group = "C4v" ∧ stevens_params.length = 6) ∨
      (point_group = "D3h" ∧ stevens_params.length = 5))
    (hJ : J ≠ 4 ∧ J ≠ 7.5 ∧ J ≠ 3.5 ∧ J ≠ 6 ∧ J ≠ 8 ∧ J ≠ 4.5) :
    ham_cr assemble point_group J stevens_params = HamCrResult.pyNone := by
  obtain ⟨hJ4, hJ75, hJ35, hJ6, hJ8, hJ45⟩ := hJ
  rcases hpg with ⟨rfl, hl⟩ | ⟨rfl, hl⟩ | ⟨rfl, hl⟩
  · rw [ham_cr, if_pos rfl, if_neg (not_not_intro hl), if_neg hJ4, if_neg hJ75,
      if_neg hJ35, if_neg hJ6, if_neg hJ8, if_neg hJ45]
  · rw [ham_cr, if_neg (by decide), if_pos rfl, if_neg (not_not_intro hl), if_neg hJ4,
      if_neg hJ75, if_neg hJ35, if_neg hJ6, if_neg hJ8, if_neg hJ45]
  · rw [ham_cr, if_neg (by decide), if_neg (by decide), if_pos rfl,
      if_neg (not_not_intro hl), if_neg hJ4, if_neg hJ75, if_neg hJ35, if_neg hJ6,
      if_neg hJ8, if_neg hJ45]

theorem unsupported_J_returns_none_witness :
    ((("Oh" : String) = "Oh" ∧ ([0, 0] : List ℝ).length = 2) ∨
      (("Oh" : String) = "C4v" ∧ ([0, 0] : List ℝ).length = 6) ∨
      (("Oh" : String) = "D3h" ∧ ([0, 0] : List ℝ).length = 5)) ∧
    ((5 : ℝ) ≠ 4 ∧ (5 : ℝ) ≠ 7.5 ∧ (5 : ℝ) ≠ 3.5 ∧ (5 : ℝ) ≠ 6 ∧ (5 : ℝ) ≠ 8 ∧
      (5 : ℝ) ≠ 4.5) ∧
    ham_cr (fun _ _ _ => (0 : ℕ)) "Oh" 5 [0, 0] = HamCrResult.pyNone :=
  ⟨Or.inl ⟨rfl, by decide⟩,
    ⟨by norm_num, by norm_num, by norm_num, by norm_num, by norm_num, by norm_num⟩,
    unsupported_J_returns_none (fun _ _ _ => (0 : ℕ)) "Oh" 5 [0, 0]
      (Or.inl ⟨rfl, by decide⟩)
      ⟨by norm_num, by norm_num, by norm_num, by norm_num, by norm_num, by norm_num⟩⟩

/-- C1: `specific_heat` returns exactly `T_steps` pairs; the `i`-th pair is
the linspace temperature `T_i` paired with `(1/T_i^2) * (⟨E²⟩ - ⟨E⟩²)`, the
Boltzmann-weighted variance over the spectrum zero-referenced at its minimum.
The eigenvalue list stands for the output of the external `LA.eigvalsh(ham)`:
for a Hermitian `ham` it is nonempty and sorted ascending, which the
hypotheses record. -/
theorem specific_heat_boltzmann_variance (eigenvalues : List ℝ)
    (T_min T_max : ℝ) (T_steps : ℕ) (hne : eigenvalues ≠ [])
    (hsorted : List.Sorted (· ≤ ·) eigenvalues)
    (_hT : 0 < T_min) (_hT2 : T_min ≤ T_max) (_hsteps : 1 ≤ T_steps) :
    SpecificHeatClaim eigenvalues T_min T_max T_steps := by
  obtain ⟨a, t, rfl⟩ : ∃ a t, eigenvalues = a :: t := by
    cases eigenvalues with
    | nil => exact absurd rfl hne
    | cons a t => exact ⟨a, t, rfl⟩
  constructor
  · simp only [specific_heat, linspace, List.length_map, List.length_range]
  · refine ⟨a, List.mem_cons_self a t, ?_, ?_⟩
    · intro x hx
      rcases List.mem_cons.mp hx with rfl | hx2
      · exact le_refl x
      · exact (List.sorted_cons.mp hsorted).1 x hx2
    · intro i hi
      have hval : ∀ T0 : ℝ,
          cV ((a :: t).map fun e => e - a) T0 =
            1 / T0 ^ 2 *
              (boltzmannAvg ((a :: t).map fun e => e - a) T0 (fun e => e ^ 2) -
                boltzmannAvg ((a :: t).map fun e => e - a) T0 (fun e => e) ^ 2) := by
        intro T0
        simp only [cV, boltzmannAvg, Z_cr]
        rw [list_sum_map_div]
      have hlen : i < ((linspace T_min T_max T_steps).map fun t0 =>
          (t0, cV ((a :: t).map fun e => e - (a :: t).headI) t0)).length := by
        simpa [linspace] using hi
      simp only [specific_heat]
      rw [List.getD_eq_getElem _ _ hlen]
      simp only [List.getElem_map, linspace, List.getElem_range, List.headI_cons]
      rw [hval]

theorem specific_heat_boltzmann_variance_witness :
    (([0, 1] : List ℝ) ≠ [] ∧ List.Sorted (· ≤ ·) ([0, 1] : List ℝ) ∧
      (0 : ℝ) < 2 ∧ (2 : ℝ) ≤ 300 ∧ 1 ≤ 150) ∧
    SpecificHeatClaim [0, 1] 2 300 150 :=
  ⟨⟨by simp, by norm_num [List.sorted_cons], by norm_num, by norm_num, by norm_num⟩,
    specific_heat_boltzmann_variance [0, 1] 2 300 150 (by simp)
      (by norm_num [List.sorted_cons]) (by norm_num) (by norm_num) (by norm_num)⟩

/-- C2: for the point groups with a rejection loop (C4v and D3h), every
parameter vector that `generate_random_stevens` returns satisfies: the sum of
the absolute values of the interior entries (all entries except the first and
the last) is at most 1. -/
theorem stevens_interior_abs_sum_le_one (point_group : String)
    (hpg : point_group = "C4v" ∨ point_group = "D3h")
    (range : ℕ → ℝ × ℝ) (W_sign : ℝ) (rng : ℕ → ℝ) (fuel k : ℕ)
    (params : List ℝ) (pos : ℕ)
    (h : generate_random_stevens point_group range W_sign rng fuel k =
      StevensOutcome.ok params pos) :
    interiorAbsSum params ≤ 1 := by
  rcases hpg with rfl | rfl
  · rw [generate_random_stevens, if_neg (by decide), if_pos rfl] at h
    cases hL : stevensLoop range W_sign rng 5 fuel [1, 1, 1, 1, 1, 0] k with
    | none => rw [hL] at h; exact absurd h (by simp)
    | some pk =>
      obtain ⟨q, k2⟩ := pk
      rw [hL] at h
      obtain ⟨rfl, rfl⟩ : q.set 5 (2 * rng k2 - 1) = params ∧ k2 + 1 = pos := by
        simpa using h
      have hq : q.length = 5 + 1 :=
        stevensLoop_length range W_sign rng 5 fuel _ k q k2 (by simp) hL
      rw [interiorAbsSum_set_last q 5 _ hq (by norm_num),
        interiorAbsSum_eq_condVal q (by omega)]
      exact stevensLoop_le_one range W_sign rng 5 fuel _ k q k2 hL
  · rw [generate_random_stevens, if_neg (by decide), if_neg (by decide),
      if_pos rfl] at h
    cases hL : stevensLoop range W_sign rng 4 fuel [1, 1, 1, 1, 0] k with
    | none => rw [hL] at h; exact absurd h (by simp)
    | some pk =>
      obtain ⟨q, k2⟩ := pk
      rw [hL] at h
      obtain ⟨rfl, rfl⟩ : q.set 4 (2 * rng k2 - 1) = params ∧ k2 + 1 = pos := by
        simpa using h
      have hq : q.length = 4 + 1 :=
        stevensLoop_length range W_sign rng 4 fuel _ k q k2 (by simp) hL
      rw [interiorAbsSum_set_last q 4 _ hq (by norm_num),
        interiorAbsSum_eq_condVal q (by omega)]
      exact stevensLoop_le_one range W_sign rng 4 fuel _ k q k2 hL

/-- Concrete accepted C4v run used by the witnesses: with the all-zero rng
stream and ranges `(0,0)` the initial array is rejected once and the all-zero
redraw is accepted, giving parameters `[0,0,0,0,0,-1]` and final position 6. -/
lemma gen_c4v_zero_run :
    generate_random_stevens "C4v" (fun _ => ((0 : ℝ), (0 : ℝ))) 1 (fun _ => (0 : ℝ)) 1 0 =
      StevensOutcome.ok [0, 0, 0, 0, 0, -1] 6 := by
  have hstep : stevensLoop (fun _ => ((0 : ℝ), (0 : ℝ))) 1 (fun _ => (0 : ℝ)) 5 1
      [1, 1, 1, 1, 1, 0] 0 = some ([0, 0, 0, 0, 0, 0], 5) := by
    rw [show (1 : ℕ) = 0 + 1 from rfl, stevensLoop]
    rw [if_neg (by norm_num [condVal, List.getLastD])]
    have hblock : drawBlock (fun _ => ((0 : ℝ), (0 : ℝ))) 1 (fun _ => (0 : ℝ)) 5 0 ++
        List.drop 5 [1, 1, 1, 1, 1, (0 : ℝ)] = [0, 0, 0, 0, 0, 0] := by
      norm_num [drawBlock, drawOne, show List.range 5 = [0, 1, 2, 3, 4] from rfl]
    rw [hblock, stevensLoop, if_pos (by norm_num [condVal, List.getLastD])]
  rw [generate_random_stevens, if_neg (by decide), if_pos rfl, hstep]
  norm_num [List.set]

theorem stevens_interior_abs_sum_le_one_witness :
    (("C4v" : String) = "C4v" ∨ ("C4v" : String) = "D3h") ∧
    generate_random_stevens "C4v" (fun _ => ((0 : ℝ), (0 : ℝ))) 1 (fun _ => (0 : ℝ)) 1 0 =
      StevensOutcome.ok [0, 0, 0, 0, 0, -1] 6 ∧
    interiorAbsSum [0, 0, 0, 0, 0, -1] ≤ 1 :=
  ⟨Or.inl rfl, gen_c4v_zero_run,
    stevens_interior_abs_sum_le_one "C4v" (Or.inl rfl) _ _ _ _ _ _ _ gen_c4v_zero_run⟩

/-- C3: the field-perturbed Hamiltonian used by `magnetization` and
`susceptibility` equals `ham0 - gJLS * 0.671713816 * B` times the direction
operator built from the direction normalized to unit length, with `gJLS` the
stated Landé-type factor. -/
theorem perturbed_hamiltonian_spec (tJ : ℕ)
    (ham0 : Matrix (Fin (tJ + 1)) (Fin (tJ + 1)) ℂ) (d : ℝ × ℝ × ℝ)
    (B Jq L S : ℝ) (hd : d ≠ (0, 0, 0)) :
    PerturbedHamClaim tJ ham0 d B Jq L S := by
  refine ⟨rfl, ?_, rfl⟩
  obtain ⟨d1, d2, d3⟩ := d
  have hS : 0 < d1 ^ 2 + d2 ^ 2 + d3 ^ 2 := by
    rcases lt_or_eq_of_le (by positivity : (0 : ℝ) ≤ d1 ^ 2 + d2 ^ 2 + d3 ^ 2) with h | h
    · exact h
    · exfalso
      apply hd
      have h1 : d1 = 0 := by
        have : d1 ^ 2 = 0 := by nlinarith [sq_nonneg d1, sq_nonneg d2, sq_nonneg d3]
        exact pow_eq_zero_iff two_ne_zero |>.mp this
      have h2 : d2 = 0 := by
        have : d2 ^ 2 = 0 := by nlinarith [sq_nonneg d1, sq_nonneg d2, sq_nonneg d3]
        exact pow_eq_zero_iff two_ne_zero |>.mp this
      have h3 : d3 = 0 := by
        have : d3 ^ 2 = 0 := by nlinarith [sq_nonneg d1, sq_nonneg d2, sq_nonneg d3]
        exact pow_eq_zero_iff two_ne_zero |>.mp this
      rw [h1, h2, h3]
  simp only [normalize3, norm3]
  rw [div_pow, div_pow, div_pow, Real.sq_sqrt hS.le]
  rw [div_add_div_same, div_add_div_same, div_self (ne_of_gt hS)]

theorem perturbed_hamiltonian_spec_witness :
    (((0, 0, 1) : ℝ × ℝ × ℝ) ≠ (0, 0, 0)) ∧ PerturbedHamClaim 0 0 (0, 0, 1) 1 4 5 1 :=
  ⟨by simp, perturbed_hamiltonian_spec 0 0 (0, 0, 1) 1 4 5 1 (by simp)⟩

/-- C4: for the same zero-field Hamiltonian, direction, field value `B` and a
temperature appearing in both grids, the susceptibility value times `B`
equals the magnetization value computed at field `B` (the susceptibility is
the finite-difference linear response `mag/B`). -/
theorem susceptibility_times_B_eq_magnetization (tJ : ℕ) (eig : EigFn (tJ + 1))
    (ham0 : Matrix (Fin (tJ + 1)) (Fin (tJ + 1)) ℂ) (d : ℝ × ℝ × ℝ)
    (B B_min B_max : ℝ) (B_steps : ℕ) (T_min2 T_max2 : ℝ) (T_steps2 : ℕ)
    (T_min T_max : ℝ) (T_steps : ℕ) (Jq L S : ℝ) (hB : B ≠ 0) :
    SuscMagAgreeClaim tJ eig ham0 d B B_min B_max B_steps T_min2 T_max2 T_steps2
      T_min T_max T_steps Jq L S := by
  intro p hp row hrow q hq hqB hpT
  rw [susceptibility] at hp
  rw [magnetization] at hrow
  obtain ⟨T0, hT0, rfl⟩ := List.mem_map.mp hp
  obtain ⟨B0, hB0, rfl⟩ := List.mem_map.mp hrow
  obtain ⟨T1, hT1, rfl⟩ := List.mem_map.mp hq
  simp only at hqB hpT ⊢
  rw [hqB, hpT, suscMagPoint_eq_magPoint]
  exact div_ofReal_re_mul _ B hB

theorem susceptibility_times_B_eq_magnetization_witness :
    ((1 : ℝ) ≠ 0) ∧
    SuscMagAgreeClaim 0 (fun _ => (fun _ => 0, 1)) 0 (0, 0, 1) 1 0 10 3 2 300 4
      1 300 5 4 5 1 :=
  ⟨by norm_num,
    susceptibility_times_B_eq_magnetization 0 (fun _ => (fun _ => 0, 1)) 0 (0, 0, 1)
      1 0 10 3 2 300 4 1 300 5 4 5 1 (by norm_num)⟩

lemma abs_half : |(1 / 2 : ℝ)| = 1 / 2 := abs_eq_self.mpr (by norm_num)

/-- C6 is false as stated: with the `cexRng` stream, ranges `(0,1)` and sign
`+1`, the first C4v loop iteration draws leading value 0 but is rejected
(interior sum 2), and the accepted sample has leading value 1/2 drawn in the
second iteration — not the value of the initial draw position. -/
theorem leading_param_redrawn_cex : ¬ LeadingDrawnOnce := by
  intro h
  have hstep : stevensLoop (fun _ => ((0 : ℝ), (1 : ℝ))) 1 cexRng 5 2
      [1, 1, 1, 1, 1, 0] 0 = some ([1 / 2, 0, 0, 0, 0, 0], 10) := by
    rw [show (2 : ℕ) = 1 + 1 from rfl, stevensLoop]
    rw [if_neg (by norm_num [condVal, List.getLastD])]
    have hb1 : drawBlock (fun _ => ((0 : ℝ), (1 : ℝ))) 1 cexRng 5 0 ++
        List.drop 5 [1, 1, 1, 1, 1, (0 : ℝ)] = [0, 1 / 2, 1 / 2, 1 / 2, 1 / 2, 0] := by
      norm_num [drawBlock, drawOne, cexRng, show List.range 5 = [0, 1, 2, 3, 4] from rfl]
    rw [hb1, show (1 : ℕ) = 0 + 1 from rfl, stevensLoop]
    rw [if_neg (by norm_num [condVal, List.getLastD, abs_half])]
    have hb2 : drawBlock (fun _ => ((0 : ℝ), (1 : ℝ))) 1 cexRng 5 5 ++
        List.drop 5 [0, 1 / 2, 1 / 2, 1 / 2, 1 / 2, (0 : ℝ)] =
          [1 / 2, 0, 0, 0, 0, 0] := by
      norm_num [drawBlock, drawOne, cexRng, show List.range 5 = [0, 1, 2, 3, 4] from rfl]
    rw [hb2, stevensLoop, if_pos (by norm_num [condVal, List.getLastD, abs_half])]
  have hrun : generate_random_stevens "C4v" (fun _ => ((0 : ℝ), (1 : ℝ))) 1 cexRng 2 0 =
      StevensOutcome.ok [1 / 2, 0, 0, 0, 0, -1] 11 := by
    rw [generate_random_stevens, if_neg (by decide), if_pos rfl, hstep]
    norm_num [List.set, cexRng]
  have h2 := h "C4v" (fun _ => ((0 : ℝ), (1 : ℝ))) 1 cexRng 2 0
    [1 / 2, 0, 0, 0, 0, -1] 11 (Or.inl rfl) hrun
  norm_num [cexRng] at h2

/-- C6 (amended): the rejection loop redraws the leading parameter on every
iteration together with the interior ones; the accepted leading parameter is
the leading draw of the final (accepted) iteration — at rng position
`pos - 6` for C4v and `pos - 5` for D3h, where `pos` is the returned rng
position — still uniform in its range and multiplied by the sign selector. -/
theorem leading_param_from_final_iteration (point_group : String)
    (range : ℕ → ℝ × ℝ) (W_sign : ℝ) (rng : ℕ → ℝ) (fuel k : ℕ)
    (params : List ℝ) (pos : ℕ)
    (hpg : point_group = "C4v" ∨ point_group = "D3h")
    (h : generate_random_stevens point_group range W_sign rng fuel k =
      StevensOutcome.ok params pos) :
    k + (if point_group = "C4v" then 6 else 5) ≤ pos ∧
    params.headI =
      ((range 0).1 + ((range 0).2 - (range 0).1) *
        rng (pos - (if point_group = "C4v" then 6 else 5))) * W_sign := by
  rcases hpg with rfl | rfl
  · rw [if_pos rfl]
    rw [generate_random_stevens, if_neg (by decide), if_pos rfl] at h
    cases hL : stevensLoop range W_sign rng 5 fuel [1, 1, 1, 1, 1, 0] k with
    | none => rw [hL] at h; exact absurd h (by simp)
    | some pk =>
      obtain ⟨q, k2⟩ := pk
      rw [hL] at h
      obtain ⟨rfl, rfl⟩ : q.set 5 (2 * rng k2 - 1) = params ∧ k2 + 1 = pos := by
        simpa using h
      have hcond : 1 < condVal [1, 1, 1, 1, 1, (0 : ℝ)] := by
        norm_num [condVal, List.getLastD]
      obtain ⟨hk2, hq⟩ :=
        stevensLoop_accepted_block range W_sign rng 5 fuel _ k q k2 hcond hL
      refine ⟨by omega, ?_⟩
      rw [headI_set_of_ne_zero _ _ _ (by norm_num), hq,
        show k2 + 1 - 6 = k2 - 5 from by omega]
      have hne : drawBlock range W_sign rng 5 (k2 - 5) ≠ [] := by
        intro h0
        have hlen := drawBlock_length range W_sign rng 5 (k2 - 5)
        rw [h0] at hlen
        simp at hlen
      rw [headI_append_of_ne_nil _ _ hne,
        drawBlock_headI range W_sign rng 5 (k2 - 5) (by norm_num)]
  · rw [if_neg (by decide)]
    rw [generate_random_stevens, if_neg (by decide), if_neg (by decide),
      if_pos rfl] at h
    cases hL : stevensLoop range W_sign rng 4 fuel [1, 1, 1, 1, 0] k with
    | none => rw [hL] at h; exact absurd h (by simp)
    | some pk =>
      obtain ⟨q, k2⟩ := pk
      rw [hL] at h
      obtain ⟨rfl, rfl⟩ : q.set 4 (2 * rng k2 - 1) = params ∧ k2 + 1 = pos := by
        simpa using h
      have hcond : 1 < condVal [1, 1, 1, 1, (0 : ℝ)] := by
        norm_num [condVal, List.getLastD]
      obtain ⟨hk2, hq⟩ :=
        stevensLoop_accepted_block range W_sign rng 4 fuel _ k q k2 hcond hL
      refine ⟨by omega, ?_⟩
      rw [headI_set_of_ne_zero _ _ _ (by norm_num), hq,
        show k2 + 1 - 5 = k2 - 4 from by omega]
      have hne : drawBlock range W_sign rng 4 (k2 - 4) ≠ [] := by
        intro h0
        have hlen := drawBlock_length range W_sign rng 4 (k2 - 4)
        rw [h0] at hlen
        simp at hlen
      rw [headI_append_of_ne_nil _ _ hne,
        drawBlock_headI range W_sign rng 4 (k2 - 4) (by norm_num)]

theorem leading_param_from_final_iteration_witness :
    (("C4v" : String) = "C4v" ∨ ("C4v" : String) = "D3h") ∧
    generate_random_stevens "C4v" (fun _ => ((0 : ℝ), (0 : ℝ))) 1 (fun _ => (0 : ℝ)) 1 0 =
      StevensOutcome.ok [0, 0, 0, 0, 0, -1] 6 ∧
    (0 + (if ("C4v" : String) = "C4v" then 6 else 5) ≤ 6 ∧
      ([0, 0, 0, 0, 0, (-1 : ℝ)]).headI = ((0 : ℝ) + ((0 : ℝ) - 0) * 0) * 1) :=
  ⟨Or.inl rfl, gen_c4v_zero_run,
    leading_param_from_final_iteration "C4v" _ _ _ _ _ _ _ (Or.inl rfl) gen_c4v_zero_run⟩
